import Mathlib

/-!
Verification of the snapshot aggregation and metric re-export pipeline of the
eos-traffic-shaping-monitor program (main.go).

The embedding models the registry-relevant behaviour of one iteration of the
runMonitor receive loop as an explicit list of registry operations, applied to
an explicit registry state.  Gauge vectors (prometheus GaugeVec values indexed
by label lists, as produced by WithLabelValues) are modelled as association
lists from label lists to rational values; float64 values are modelled as
rationals, which is faithful here because the export path applies no
arithmetic to them.  The estimator window of a rate sample is represented by
the string name its protobuf String method yields, which is the only form the
program ever uses.
-/

namespace EosMonitor

/-- RateStats models the protobuf RateStats message as used by main.go: the
estimator window (by its string name) and the two exported per-second byte
rates. -/
structure RateStats where
  window : String
  bytesReadPerSec : ℚ
  bytesWrittenPerSec : ℚ
deriving DecidableEq

/-- AppRateEntry models the protobuf AppRateEntry message: an application name
together with its rate samples. -/
structure AppRateEntry where
  appName : String
  stats : List RateStats
deriving DecidableEq

/-- UserRateEntry models the protobuf UserRateEntry message: a numeric uid
together with its rate samples. -/
structure UserRateEntry where
  uid : Nat
  stats : List RateStats
deriving DecidableEq

/-- GroupRateEntry models the protobuf GroupRateEntry message: a numeric gid
together with its rate samples. -/
structure GroupRateEntry where
  gid : Nat
  stats : List RateStats
deriving DecidableEq

/-- ThreadLoopStats models the protobuf thread-loop instrumentation block with
its three elapsed-time statistics in microseconds. -/
structure ThreadLoopStats where
  meanElapsedTimeMicroSec : Nat
  minElapsedTimeMicroSec : Nat
  maxElapsedTimeMicroSec : Nat
deriving DecidableEq

/-- Report models one streamed TrafficShapingRateReport snapshot: a timestamp,
two optional thread-loop instrumentation blocks, and the ranked entity lists
for applications, users and groups. -/
structure Report where
  timestampMs : Int
  fstLimitsUpdateThreadLoopStats : Option ThreadLoopStats
  estimatorsUpdateThreadLoopStats : Option ThreadLoopStats
  appStats : List AppRateEntry
  userStats : List UserRateEntry
  groupStats : List GroupRateEntry
deriving DecidableEq

/-- Family enumerates the three registered prometheus gauge vectors of
main.go: eos_io_read_bytes_per_second, eos_io_write_bytes_per_second and
eos_io_thread_loop_microseconds. -/
inductive Family where
  | readBytes
  | writeBytes
  | threadLoopMicros
deriving DecidableEq

/-- GaugeVec models one prometheus GaugeVec as an association list from label
value lists (the arguments of WithLabelValues, in order) to gauge values. -/
abbrev GaugeVec : Type := List (List String × ℚ)

/-- Registry models the process-wide prometheus registry restricted to the
three gauge vectors main.go registers. -/
structure Registry where
  readBytes : GaugeVec
  writeBytes : GaugeVec
  threadLoopMicros : GaugeVec
deriving DecidableEq

/-- The empty registry, the state right after prometheus.MustRegister. -/
def emptyRegistry : Registry :=
  ⟨[], [], []⟩

/-- setKV models WithLabelValues(labels...).Set(v): it replaces the value of
an existing label combination in place or appends a fresh one. -/
def setKV (g : GaugeVec) (k : List String) (v : ℚ) : GaugeVec :=
  match g with
  | [] => [(k, v)]
  | (k2, v2) :: rest => if k2 = k then (k, v) :: rest else (k2, v2) :: setKV rest k v

/-- lookupKV reads the gauge value currently stored for a label combination,
as a scrape of that single series would. -/
def lookupKV (g : GaugeVec) (k : List String) : Option ℚ :=
  match g with
  | [] => none
  | (k2, v2) :: rest => if k2 = k then some v2 else lookupKV rest k

/-- RegOp is one registry mutation issued by the monitor loop: a Reset of a
whole gauge vector, or a WithLabelValues(...).Set(value). -/
inductive RegOp where
  | clear (fam : Family)
  | set (fam : Family) (labels : List String) (value : ℚ)
deriving DecidableEq

/-- Family an operation acts on. -/
def RegOp.fam : RegOp → Family
  | .clear f => f
  | .set f _ _ => f

/-- Projection of the registry onto one gauge vector. -/
def getFam (reg : Registry) : Family → GaugeVec
  | .readBytes => reg.readBytes
  | .writeBytes => reg.writeBytes
  | .threadLoopMicros => reg.threadLoopMicros

/-- Replacement of one gauge vector of the registry. -/
def setFam (reg : Registry) : Family → GaugeVec → Registry
  | .readBytes, g => { reg with readBytes := g }
  | .writeBytes, g => { reg with writeBytes := g }
  | .threadLoopMicros, g => { reg with threadLoopMicros := g }

/-- applyOp executes one registry operation: Reset empties the vector, Set
upserts one labelled value. -/
def applyOp (reg : Registry) (op : RegOp) : Registry :=
  match op with
  | .clear f => setFam reg f []
  | .set f k v => setFam reg f (setKV (getFam reg f) k v)

/-- applyOps executes a sequence of registry operations in order. -/
def applyOps (reg : Registry) (ops : List RegOp) : Registry :=
  ops.foldl applyOp reg

/-- exportMetricOps is the operation sequence of the exportMetric helper of
main.go: it sets the read-bytes gauge and then the write-bytes gauge for the
same (entity_type, id, estimator) label combination, passing the sample
fields through unchanged. -/
def exportMetricOps (eType id win : String) (s : RateStats) : List RegOp :=
  [.set .readBytes [eType, id, win] s.bytesReadPerSec,
   .set .writeBytes [eType, id, win] s.bytesWrittenPerSec]

/-- exportMetric is the registry effect of the exportMetric helper of
main.go. -/
def exportMetric (eType id win : String) (s : RateStats) (reg : Registry) : Registry :=
  applyOps reg (exportMetricOps eType id win s)

/-- threadLoopOps is the operation sequence the loop body issues for one
optional thread-loop instrumentation block: nothing when the block is absent,
otherwise a Set of the mean, min and max statistics under the given loop
name.  No Reset of the thread-loop vector is ever issued. -/
def threadLoopOps (name : String) : Option ThreadLoopStats → List RegOp
  | none => []
  | some t =>
    [.set .threadLoopMicros [name, "mean"] (t.meanElapsedTimeMicroSec : ℚ),
     .set .threadLoopMicros [name, "min"] (t.minElapsedTimeMicroSec : ℚ),
     .set .threadLoopMicros [name, "max"] (t.maxElapsedTimeMicroSec : ℚ)]

/-- appOps is the operation sequence of printAndExportApps: for every entry
and every sample, the exportMetric calls with entity type app, the
application name, and the window name.  The early return on an empty slice
issues no operations, exactly like the loop over an empty slice. -/
def appOps (stats : List AppRateEntry) : List RegOp :=
  stats.flatMap (fun entry => entry.stats.flatMap
    (fun s => exportMetricOps "app" entry.appName s.window s))

/-- userOps is the operation sequence of printAndExportUsers, with the uid
rendered in decimal as strconv.Itoa does. -/
def userOps (stats : List UserRateEntry) : List RegOp :=
  stats.flatMap (fun entry => entry.stats.flatMap
    (fun s => exportMetricOps "user" (toString entry.uid) s.window s))

/-- groupOps is the operation sequence of printAndExportGroups, with the gid
rendered in decimal as strconv.Itoa does. -/
def groupOps (stats : List GroupRateEntry) : List RegOp :=
  stats.flatMap (fun entry => entry.stats.flatMap
    (fun s => exportMetricOps "group" (toString entry.gid) s.window s))

/-- reducePassOps is the full registry operation sequence of one iteration of
the runMonitor receive loop, in program order: the thread-loop Sets for the
two optional instrumentation blocks, then the Reset of the read-bytes and
write-bytes vectors, then the per-entity Sets for applications, users and
groups. -/
def reducePassOps (r : Report) : List RegOp :=
  threadLoopOps "fst_limits" r.fstLimitsUpdateThreadLoopStats
    ++ threadLoopOps "estimators" r.estimatorsUpdateThreadLoopStats
    ++ [.clear .readBytes, .clear .writeBytes]
    ++ appOps r.appStats ++ userOps r.userStats ++ groupOps r.groupStats

/-- reducePass is the registry effect of one iteration of the runMonitor
receive loop on one received snapshot. -/
def reducePass (r : Report) (reg : Registry) : Registry :=
  applyOps reg (reducePassOps r)

/-- firstSome prefers its first argument when that one carries a value. -/
def firstSome (a b : Option ℚ) : Option ℚ :=
  match a with
  | some v => some v
  | none => b

/-- lastVal returns the value of the last pair of the list carrying the given
key, the value a left fold of upserts over the list leaves behind. -/
def lastVal (ps : List (List String × ℚ)) (k : List String) : Option ℚ :=
  match ps with
  | [] => none
  | p :: rest => firstSome (lastVal rest k) (if p.1 = k then some p.2 else none)

/-- foldUpsert applies a list of labelled values to a gauge vector as
successive upserts. -/
def foldUpsert (g : GaugeVec) (ps : List (List String × ℚ)) : GaugeVec :=
  ps.foldl (fun acc p => setKV acc p.1 p.2) g

/-- appPairs lists, in processing order, the labelled values the application
loop of the reduction pass produces for one chosen quantity. -/
def appPairs (f : RateStats → ℚ) (l : List AppRateEntry) : List (List String × ℚ) :=
  l.flatMap (fun e => e.stats.map (fun s => (["app", e.appName, s.window], f s)))

/-- userPairs lists, in processing order, the labelled values the user loop of
the reduction pass produces for one chosen quantity. -/
def userPairs (f : RateStats → ℚ) (l : List UserRateEntry) : List (List String × ℚ) :=
  l.flatMap (fun e => e.stats.map (fun s => (["user", toString e.uid, s.window], f s)))

/-- groupPairs lists, in processing order, the labelled values the group loop
of the reduction pass produces for one chosen quantity. -/
def groupPairs (f : RateStats → ℚ) (l : List GroupRateEntry) : List (List String × ℚ) :=
  l.flatMap (fun e => e.stats.map (fun s => (["group", toString e.gid, s.window], f s)))

/-- entityPairs lists every labelled value of one chosen quantity derivable
from the ranked entity lists of a snapshot, in processing order. -/
def entityPairs (f : RateStats → ℚ) (r : Report) : List (List String × ℚ) :=
  appPairs f r.appStats ++ userPairs f r.userStats ++ groupPairs f r.groupStats

/-- readPairs is the labelled bytes-read values derivable from a snapshot. -/
def readPairs (r : Report) : List (List String × ℚ) :=
  entityPairs (fun s => s.bytesReadPerSec) r

/-- writePairs is the labelled bytes-written values derivable from a
snapshot. -/
def writePairs (r : Report) : List (List String × ℚ) :=
  entityPairs (fun s => s.bytesWrittenPerSec) r

/-- threadLoopPairs lists the labelled values one optional thread-loop block
contributes to the thread-loop gauge vector. -/
def threadLoopPairs (name : String) : Option ThreadLoopStats → List (List String × ℚ)
  | none => []
  | some t =>
    [([name, "mean"], (t.meanElapsedTimeMicroSec : ℚ)),
     ([name, "min"], (t.minElapsedTimeMicroSec : ℚ)),
     ([name, "max"], (t.maxElapsedTimeMicroSec : ℚ))]

/-- auxPairs lists every labelled value the auxiliary instrumentation of a
snapshot contributes to the thread-loop gauge vector, in processing order. -/
def auxPairs (r : Report) : List (List String × ℚ) :=
  threadLoopPairs "fst_limits" r.fstLimitsUpdateThreadLoopStats
    ++ threadLoopPairs "estimators" r.estimatorsUpdateThreadLoopStats

theorem lookupKV_setKV (g : GaugeVec) (k : List String) (v : ℚ) (k2 : List String) :
    lookupKV (setKV g k v) k2 = if k = k2 then some v else lookupKV g k2 := by
  induction g with
  | nil => simp [setKV, lookupKV]
  | cons p rest ih =>
    obtain ⟨pk, pv⟩ := p
    by_cases h1 : pk = k
    · subst h1
      by_cases h2 : pk = k2 <;> simp [setKV, lookupKV, h2]
    · by_cases h2 : pk = k2
      · subst h2
        have : ¬ k = pk := fun h => h1 h.symm
        simp [setKV, lookupKV, h1, this]
      · simp [setKV, lookupKV, h1, h2, ih]

theorem lookupKV_foldUpsert (ps : List (List String × ℚ)) (g : GaugeVec) (k : List String) :
    lookupKV (foldUpsert g ps) k = firstSome (lastVal ps k) (lookupKV g k) := by
  induction ps generalizing g with
  | nil => simp [foldUpsert, lastVal, firstSome]
  | cons p rest ih =>
    obtain ⟨pk, pv⟩ := p
    show lookupKV (foldUpsert (setKV g pk pv) rest) k = _
    rw [ih]
    cases hrest : lastVal rest k with
    | some v => simp [lastVal, firstSome, hrest]
    | none =>
      by_cases h : pk = k <;>
        simp [lastVal, firstSome, hrest, lookupKV_setKV, h]

theorem lastVal_cons (p : List String × ℚ) (rest : List (List String × ℚ)) (k : List String) :
    lastVal (p :: rest) k
      = firstSome (lastVal rest k) (if p.1 = k then some p.2 else none) := rfl

theorem lastVal_isSome_iff (ps : List (List String × ℚ)) (k : List String) :
    (lastVal ps k).isSome = true ↔ k ∈ ps.map (fun p => p.1) := by
  induction ps with
  | nil => simp [lastVal]
  | cons p rest ih =>
    rw [lastVal_cons, List.map_cons, List.mem_cons]
    cases hrest : lastVal rest k with
    | some v =>
      rw [hrest] at ih
      simp only [firstSome, Option.isSome_some, true_iff] at ih ⊢
      exact Or.inr ih
    | none =>
      rw [hrest] at ih
      simp only [Option.isSome_none, Bool.false_eq_true, false_iff] at ih
      by_cases h : p.1 = k
      · simp only [firstSome, if_pos h, Option.isSome_some, true_iff]
        exact Or.inl h.symm
      · simp only [firstSome, if_neg h, Option.isSome_none, Bool.false_eq_true, false_iff]
        rintro (hk | hm)
        · exact h hk.symm
        · exact ih hm

theorem lastVal_mem (ps : List (List String × ℚ)) (k : List String) (v : ℚ)
    (h : lastVal ps k = some v) : (k, v) ∈ ps := by
  induction ps with
  | nil => simp [lastVal] at h
  | cons p rest ih =>
    rw [lastVal_cons] at h
    cases hrest : lastVal rest k with
    | some w =>
      rw [hrest] at h
      simp only [firstSome] at h
      cases h
      exact List.mem_cons_of_mem _ (ih hrest)
    | none =>
      rw [hrest] at h
      simp only [firstSome] at h
      by_cases hk : p.1 = k
      · rw [if_pos hk] at h
        cases h
        have hp : (k, p.2) = p := by
          rw [← hk]
        rw [hp]
        exact List.mem_cons_self _ _
      · rw [if_neg hk] at h
        cases h

theorem lastVal_append (l1 l2 : List (List String × ℚ)) (k : List String) :
    lastVal (l1 ++ l2) k = firstSome (lastVal l2 k) (lastVal l1 k) := by
  induction l1 with
  | nil => cases h : lastVal l2 k <;> simp [lastVal, firstSome, h]
  | cons p rest ih =>
    rw [List.cons_append, lastVal_cons, lastVal_cons, ih]
    cases h : lastVal l2 k <;> simp [firstSome]

theorem lastVal_eq_none (ps : List (List String × ℚ)) (k : List String)
    (h : k ∉ ps.map (fun p => p.1)) : lastVal ps k = none := by
  cases hv : lastVal ps k with
  | none => rfl
  | some v =>
    exact absurd ((lastVal_isSome_iff ps k).mp (by simp [hv])) h

/-- opsOn keeps the operations acting on one given gauge vector, in order. -/
def opsOn (f : Family) : List RegOp → List RegOp
  | [] => []
  | op :: rest => if op.fam = f then op :: opsOn f rest else opsOn f rest

/-- stepFam is the effect of one operation on the gauge vector it acts on. -/
def stepFam (g : GaugeVec) : RegOp → GaugeVec
  | .clear _ => []
  | .set _ k v => setKV g k v

theorem getFam_setFam (reg : Registry) (f : Family) (g : GaugeVec) (f2 : Family) :
    getFam (setFam reg f g) f2 = if f = f2 then g else getFam reg f2 := by
  cases f <;> cases f2 <;> simp [getFam, setFam]

theorem getFam_applyOp (reg : Registry) (op : RegOp) (f : Family) :
    getFam (applyOp reg op) f
      = if op.fam = f then stepFam (getFam reg f) op else getFam reg f := by
  cases op with
  | clear f2 =>
    rw [show applyOp reg (.clear f2) = setFam reg f2 [] from rfl, getFam_setFam]
    by_cases h : f2 = f <;> simp [RegOp.fam, stepFam, h]
  | set f2 k v =>
    rw [show applyOp reg (.set f2 k v) = setFam reg f2 (setKV (getFam reg f2) k v) from rfl,
      getFam_setFam]
    by_cases h : f2 = f
    · subst h
      simp [RegOp.fam, stepFam]
    · simp [RegOp.fam, stepFam, h]

theorem getFam_applyOps (ops : List RegOp) (reg : Registry) (f : Family) :
    getFam (applyOps reg ops) f = (opsOn f ops).foldl stepFam (getFam reg f) := by
  induction ops generalizing reg with
  | nil => rfl
  | cons op rest ih =>
    show getFam (applyOps (applyOp reg op) rest) f = _
    rw [ih]
    by_cases h : op.fam = f
    · rw [show opsOn f (op :: rest) = op :: opsOn f rest by simp [opsOn, h]]
      rw [List.foldl_cons, getFam_applyOp, if_pos h]
    · rw [show opsOn f (op :: rest) = opsOn f rest by simp [opsOn, h]]
      rw [getFam_applyOp, if_neg h]

theorem opsOn_append (f : Family) (l1 l2 : List RegOp) :
    opsOn f (l1 ++ l2) = opsOn f l1 ++ opsOn f l2 := by
  induction l1 with
  | nil => rfl
  | cons op rest ih =>
    by_cases h : op.fam = f <;> simp [opsOn, h, ih]

theorem opsOn_threadLoopOps (f : Family) (hf : f ≠ .threadLoopMicros)
    (name : String) (o : Option ThreadLoopStats) :
    opsOn f (threadLoopOps name o) = [] := by
  have hne : Family.threadLoopMicros ≠ f := fun h => hf h.symm
  cases o <;> simp [threadLoopOps, opsOn, RegOp.fam, hne]

theorem opsOn_threadLoopOps_self (name : String) (o : Option ThreadLoopStats) :
    opsOn .threadLoopMicros (threadLoopOps name o)
      = (threadLoopPairs name o).map (fun p => RegOp.set .threadLoopMicros p.1 p.2) := by
  cases o <;> rfl

theorem foldl_stepFam_toSet (f : Family) (ps : List (List String × ℚ)) (g : GaugeVec) :
    (ps.map (fun p => RegOp.set f p.1 p.2)).foldl stepFam g = foldUpsert g ps := by
  induction ps generalizing g with
  | nil => rfl
  | cons p rest ih =>
    show (rest.map (fun p => RegOp.set f p.1 p.2)).foldl stepFam (setKV g p.1 p.2) = _
    rw [ih]
    rfl

theorem opsOn_statsOps (fam : Family) (sel : RateStats → ℚ)
    (hsel : (fam = .readBytes ∧ sel = fun s => s.bytesReadPerSec)
      ∨ (fam = .writeBytes ∧ sel = fun s => s.bytesWrittenPerSec))
    (t i : String) (ss : List RateStats) :
    opsOn fam (ss.flatMap (fun s => exportMetricOps t i s.window s))
      = (ss.map (fun s => ([t, i, s.window], sel s))).map
          (fun p => RegOp.set fam p.1 p.2) := by
  induction ss with
  | nil => rfl
  | cons s rest ih =>
    rw [List.flatMap_cons, opsOn_append, ih, List.map_cons, List.map_cons]
    rcases hsel with ⟨hf, hs⟩ | ⟨hf, hs⟩ <;> subst hf <;> subst hs <;> rfl

theorem firstSome_none_right (a : Option ℚ) : firstSome a none = a := by
  cases a <;> rfl

theorem firstSome_assoc (a b c : Option ℚ) :
    firstSome (firstSome a b) c = firstSome a (firstSome b c) := by
  cases a <;> rfl

theorem opsOn_appOps_read (l : List AppRateEntry) :
    opsOn .readBytes (appOps l)
      = (appPairs (fun s => s.bytesReadPerSec) l).map
          (fun p => RegOp.set .readBytes p.1 p.2) := by
  induction l with
  | nil => rfl
  | cons e rest ih =>
    rw [appOps, List.flatMap_cons, opsOn_append, ← appOps, ih,
      opsOn_statsOps .readBytes _ (Or.inl ⟨rfl, rfl⟩)]
    simp [appPairs, List.flatMap_cons]

theorem opsOn_userOps_read (l : List UserRateEntry) :
    opsOn .readBytes (userOps l)
      = (userPairs (fun s => s.bytesReadPerSec) l).map
          (fun p => RegOp.set .readBytes p.1 p.2) := by
  induction l with
  | nil => rfl
  | cons e rest ih =>
    rw [userOps, List.flatMap_cons, opsOn_append, ← userOps, ih,
      opsOn_statsOps .readBytes _ (Or.inl ⟨rfl, rfl⟩)]
    simp [userPairs, List.flatMap_cons]

theorem opsOn_groupOps_read (l : List GroupRateEntry) :
    opsOn .readBytes (groupOps l)
      = (groupPairs (fun s => s.bytesReadPerSec) l).map
          (fun p => RegOp.set .readBytes p.1 p.2) := by
  induction l with
  | nil => rfl
  | cons e rest ih =>
    rw [groupOps, List.flatMap_cons, opsOn_append, ← groupOps, ih,
      opsOn_statsOps .readBytes _ (Or.inl ⟨rfl, rfl⟩)]
    simp [groupPairs, List.flatMap_cons]

theorem opsOn_appOps_write (l : List AppRateEntry) :
    opsOn .writeBytes (appOps l)
      = (appPairs (fun s => s.bytesWrittenPerSec) l).map
          (fun p => RegOp.set .writeBytes p.1 p.2) := by
  induction l with
  | nil => rfl
  | cons e rest ih =>
    rw [appOps, List.flatMap_cons, opsOn_append, ← appOps, ih,
      opsOn_statsOps .writeBytes _ (Or.inr ⟨rfl, rfl⟩)]
    simp [appPairs, List.flatMap_cons]

theorem opsOn_userOps_write (l : List UserRateEntry) :
    opsOn .writeBytes (userOps l)
      = (userPairs (fun s => s.bytesWrittenPerSec) l).map
          (fun p => RegOp.set .writeBytes p.1 p.2) := by
  induction l with
  | nil => rfl
  | cons e rest ih =>
    rw [userOps, List.flatMap_cons, opsOn_append, ← userOps, ih,
      opsOn_statsOps .writeBytes _ (Or.inr ⟨rfl, rfl⟩)]
    simp [userPairs, List.flatMap_cons]

theorem opsOn_groupOps_write (l : List GroupRateEntry) :
    opsOn .writeBytes (groupOps l)
      = (groupPairs (fun s => s.bytesWrittenPerSec) l).map
          (fun p => RegOp.set .writeBytes p.1 p.2) := by
  induction l with
  | nil => rfl
  | cons e rest ih =>
    rw [groupOps, List.flatMap_cons, opsOn_append, ← groupOps, ih,
      opsOn_statsOps .writeBytes _ (Or.inr ⟨rfl, rfl⟩)]
    simp [groupPairs, List.flatMap_cons]

theorem opsOn_statsOps_threadLoop (t i : String) (ss : List RateStats) :
    opsOn .threadLoopMicros (ss.flatMap (fun s => exportMetricOps t i s.window s)) = [] := by
  induction ss with
  | nil => rfl
  | cons s rest ih => rw [List.flatMap_cons, opsOn_append, ih]; rfl

theorem opsOn_appOps_threadLoop (l : List AppRateEntry) :
    opsOn .threadLoopMicros (appOps l) = [] := by
  induction l with
  | nil => rfl
  | cons e rest ih =>
    rw [appOps, List.flatMap_cons, opsOn_append, ← appOps, ih,
      opsOn_statsOps_threadLoop]
    rfl

theorem opsOn_userOps_threadLoop (l : List UserRateEntry) :
    opsOn .threadLoopMicros (userOps l) = [] := by
  induction l with
  | nil => rfl
  | cons e rest ih =>
    rw [userOps, List.flatMap_cons, opsOn_append, ← userOps, ih,
      opsOn_statsOps_threadLoop]
    rfl

theorem opsOn_groupOps_threadLoop (l : List GroupRateEntry) :
    opsOn .threadLoopMicros (groupOps l) = [] := by
  induction l with
  | nil => rfl
  | cons e rest ih =>
    rw [groupOps, List.flatMap_cons, opsOn_append, ← groupOps, ih,
      opsOn_statsOps_threadLoop]
    rfl

theorem opsOn_clears_read :
    opsOn .readBytes [RegOp.clear .readBytes, RegOp.clear .writeBytes]
      = [RegOp.clear .readBytes] := by
  simp [opsOn, RegOp.fam]

theorem opsOn_clears_write :
    opsOn .writeBytes [RegOp.clear .readBytes, RegOp.clear .writeBytes]
      = [RegOp.clear .writeBytes] := by
  simp [opsOn, RegOp.fam]

theorem opsOn_clears_threadLoop :
    opsOn .threadLoopMicros [RegOp.clear .readBytes, RegOp.clear .writeBytes] = [] := by
  simp [opsOn, RegOp.fam]

theorem reducePass_lookup_read (r : Report) (reg : Registry) (k : List String) :
    lookupKV (reducePass r reg).readBytes k = lastVal (readPairs r) k := by
  have h1 : (reducePass r reg).readBytes = getFam (reducePass r reg) .readBytes := rfl
  rw [h1, reducePass, getFam_applyOps, reducePassOps]
  simp only [opsOn_append, opsOn_threadLoopOps Family.readBytes (by decide),
    opsOn_clears_read, opsOn_appOps_read, opsOn_userOps_read, opsOn_groupOps_read,
    List.nil_append]
  simp only [List.foldl_append, List.foldl_cons, List.foldl_nil]
  rw [show stepFam (getFam reg .readBytes) (RegOp.clear .readBytes) = [] from rfl]
  simp only [foldl_stepFam_toSet]
  rw [show readPairs r = appPairs (fun s => s.bytesReadPerSec) r.appStats
    ++ userPairs (fun s => s.bytesReadPerSec) r.userStats
    ++ groupPairs (fun s => s.bytesReadPerSec) r.groupStats from rfl]
  rw [lookupKV_foldUpsert, lookupKV_foldUpsert, lookupKV_foldUpsert,
    lastVal_append, lastVal_append]
  rw [show lookupKV ([] : GaugeVec) k = none from rfl, firstSome_none_right]

theorem reducePass_lookup_write (r : Report) (reg : Registry) (k : List String) :
    lookupKV (reducePass r reg).writeBytes k = lastVal (writePairs r) k := by
  have h1 : (reducePass r reg).writeBytes = getFam (reducePass r reg) .writeBytes := rfl
  rw [h1, reducePass, getFam_applyOps, reducePassOps]
  simp only [opsOn_append, opsOn_threadLoopOps Family.writeBytes (by decide),
    opsOn_clears_write, opsOn_appOps_write, opsOn_userOps_write, opsOn_groupOps_write,
    List.nil_append]
  simp only [List.foldl_append, List.foldl_cons, List.foldl_nil]
  rw [show stepFam (getFam reg .writeBytes) (RegOp.clear .writeBytes) = [] from rfl]
  simp only [foldl_stepFam_toSet]
  rw [show writePairs r = appPairs (fun s => s.bytesWrittenPerSec) r.appStats
    ++ userPairs (fun s => s.bytesWrittenPerSec) r.userStats
    ++ groupPairs (fun s => s.bytesWrittenPerSec) r.groupStats from rfl]
  rw [lookupKV_foldUpsert, lookupKV_foldUpsert, lookupKV_foldUpsert,
    lastVal_append, lastVal_append]
  rw [show lookupKV ([] : GaugeVec) k = none from rfl, firstSome_none_right]

theorem reducePass_lookup_threadLoop (r : Report) (reg : Registry) (k : List String) :
    lookupKV (reducePass r reg).threadLoopMicros k
      = firstSome (lastVal (auxPairs r) k) (lookupKV reg.threadLoopMicros k) := by
  have h1 : (reducePass r reg).threadLoopMicros
      = getFam (reducePass r reg) .threadLoopMicros := rfl
  rw [h1, reducePass, getFam_applyOps, reducePassOps]
  simp only [opsOn_append, opsOn_threadLoopOps_self, opsOn_clears_threadLoop,
    opsOn_appOps_threadLoop, opsOn_userOps_threadLoop, opsOn_groupOps_threadLoop,
    List.append_nil, List.nil_append]
  simp only [List.foldl_append, foldl_stepFam_toSet]
  rw [show auxPairs r = threadLoopPairs "fst_limits" r.fstLimitsUpdateThreadLoopStats
    ++ threadLoopPairs "estimators" r.estimatorsUpdateThreadLoopStats from rfl]
  rw [lookupKV_foldUpsert, lookupKV_foldUpsert, lastVal_append, firstSome_assoc]
  rfl

theorem lastVal_dup (l1 l2 l3 : List (List String × ℚ)) (k : List String) (v1 v2 : ℚ)
    (h3 : k ∉ l3.map (fun p => p.1)) :
    lastVal (l1 ++ (k, v1) :: l2 ++ (k, v2) :: l3) k = some v2 := by
  rw [lastVal_append, lastVal_cons, lastVal_append, lastVal_cons, lastVal_eq_none l3 k h3]
  simp [firstSome]

theorem appPairs_keys (f g : RateStats → ℚ) (l : List AppRateEntry) :
    (appPairs f l).map (fun p => p.1) = (appPairs g l).map (fun p => p.1) := by
  induction l with
  | nil => rfl
  | cons e rest ih =>
    simp only [appPairs, List.flatMap_cons, List.map_append] at ih ⊢
    rw [ih]
    congr 1
    simp [List.map_map]

theorem userPairs_keys (f g : RateStats → ℚ) (l : List UserRateEntry) :
    (userPairs f l).map (fun p => p.1) = (userPairs g l).map (fun p => p.1) := by
  induction l with
  | nil => rfl
  | cons e rest ih =>
    simp only [userPairs, List.flatMap_cons, List.map_append] at ih ⊢
    rw [ih]
    congr 1
    simp [List.map_map]

theorem groupPairs_keys (f g : RateStats → ℚ) (l : List GroupRateEntry) :
    (groupPairs f l).map (fun p => p.1) = (groupPairs g l).map (fun p => p.1) := by
  induction l with
  | nil => rfl
  | cons e rest ih =>
    simp only [groupPairs, List.flatMap_cons, List.map_append] at ih ⊢
    rw [ih]
    congr 1
    simp [List.map_map]

theorem entityPairs_keys (f g : RateStats → ℚ) (r : Report) :
    (entityPairs f r).map (fun p => p.1) = (entityPairs g r).map (fun p => p.1) := by
  simp only [entityPairs, List.map_append]
  rw [appPairs_keys f g, userPairs_keys f g, groupPairs_keys f g]

theorem not_mem_appPairs_kind (f : RateStats → ℚ) (l : List AppRateEntry)
    (h id win : String) (hne : h ≠ "app") :
    [h, id, win] ∉ (appPairs f l).map (fun p => p.1) := by
  intro hm
  simp only [appPairs, List.mem_map, List.mem_flatMap] at hm
  obtain ⟨p, ⟨e, he, hp⟩, hk⟩ := hm
  obtain ⟨s, hs, hps⟩ := hp
  rw [← hps] at hk
  have hk2 : ["app", e.appName, s.window] = [h, id, win] := hk
  simp only [List.cons.injEq] at hk2
  exact hne hk2.1.symm

theorem not_mem_userPairs_kind (f : RateStats → ℚ) (l : List UserRateEntry)
    (h id win : String) (hne : h ≠ "user") :
    [h, id, win] ∉ (userPairs f l).map (fun p => p.1) := by
  intro hm
  simp only [userPairs, List.mem_map, List.mem_flatMap] at hm
  obtain ⟨p, ⟨e, he, hp⟩, hk⟩ := hm
  obtain ⟨s, hs, hps⟩ := hp
  rw [← hps] at hk
  have hk2 : ["user", toString e.uid, s.window] = [h, id, win] := hk
  simp only [List.cons.injEq] at hk2
  exact hne hk2.1.symm

theorem not_mem_groupPairs_kind (f : RateStats → ℚ) (l : List GroupRateEntry)
    (h id win : String) (hne : h ≠ "group") :
    [h, id, win] ∉ (groupPairs f l).map (fun p => p.1) := by
  intro hm
  simp only [groupPairs, List.mem_map, List.mem_flatMap] at hm
  obtain ⟨p, ⟨e, he, hp⟩, hk⟩ := hm
  obtain ⟨s, hs, hps⟩ := hp
  rw [← hps] at hk
  have hk2 : ["group", toString e.gid, s.window] = [h, id, win] := hk
  simp only [List.cons.injEq] at hk2
  exact hne hk2.1.symm

theorem lastVal_entityPairs_none (f : RateStats → ℚ) (r : Report) (k : List String)
    (h1 : k ∉ (appPairs f r.appStats).map (fun p => p.1))
    (h2 : k ∉ (userPairs f r.userStats).map (fun p => p.1))
    (h3 : k ∉ (groupPairs f r.groupStats).map (fun p => p.1)) :
    lastVal (entityPairs f r) k = none := by
  apply lastVal_eq_none
  rw [show entityPairs f r = appPairs f r.appStats ++ userPairs f r.userStats
    ++ groupPairs f r.groupStats from rfl, List.map_append, List.map_append]
  intro hm
  rcases List.mem_append.mp hm with hm12 | hg
  · rcases List.mem_append.mp hm12 with ha | hu
    · exact h1 ha
    · exact h2 hu
  · exact h3 hg

/-- Snapshot used by concrete witnesses: one user 1001 with one SMA_5S sample
reading 2048 bytes per second and writing 0, as in the end-to-end scenario of
the specification. -/
def sampleUserReport : Report :=
  ⟨1700000000000, none, none, [], [⟨1001, [⟨"SMA_5S", 2048, 0⟩]⟩], []⟩

/-- Snapshot used by concrete witnesses: one application jobA with one SMA_1M
sample reading 1000 bytes per second. -/
def sampleAppReport : Report :=
  ⟨1, none, none, [⟨"jobA", [⟨"SMA_1M", 1000, 0⟩]⟩], [], []⟩

/-- Snapshot used by concrete witnesses: two application entries with the same
name and window but different values, a degenerate duplicate-key input. -/
def dupAppReport : Report :=
  ⟨2, none, none, [⟨"jobA", [⟨"SMA_1M", 7, 70⟩]⟩, ⟨"jobA", [⟨"SMA_1M", 9, 90⟩]⟩], [], []⟩

/-- C1: after the reduction pass for a snapshot S2 completes, over any prior
registry state (in particular one left by a previous snapshot S1), the
bytes-read and bytes-written gauge vectors hold exactly the label
combinations derivable from the ranked entity lists of S2; every stored value
is a value carried by S2, and nothing of the prior state survives in these
two vectors. -/
theorem reducePass_entity_families_exact (s1 s2 : Report) (reg : Registry)
    (k : List String) :
    ((lookupKV (reducePass s2 (reducePass s1 reg)).readBytes k).isSome = true
        ↔ k ∈ (readPairs s2).map (fun p => p.1))
      ∧ (∀ v, lookupKV (reducePass s2 (reducePass s1 reg)).readBytes k = some v
          → (k, v) ∈ readPairs s2)
      ∧ ((lookupKV (reducePass s2 (reducePass s1 reg)).writeBytes k).isSome = true
        ↔ k ∈ (writePairs s2).map (fun p => p.1))
      ∧ (∀ v, lookupKV (reducePass s2 (reducePass s1 reg)).writeBytes k = some v
          → (k, v) ∈ writePairs s2) := by
  refine ⟨?_, ?_, ?_, ?_⟩
  · rw [reducePass_lookup_read]
    exact lastVal_isSome_iff _ _
  · intro v hv
    rw [reducePass_lookup_read] at hv
    exact lastVal_mem _ _ _ hv
  · rw [reducePass_lookup_write]
    exact lastVal_isSome_iff _ _
  · intro v hv
    rw [reducePass_lookup_write] at hv
    exact lastVal_mem _ _ _ hv

/-- Witness for C1 on concrete consecutive snapshots: after reducing the user
snapshot on top of the application snapshot, the user key is present and its
stored value stems from the second snapshot. -/
theorem reducePass_entity_families_exact_witness :
    ((lookupKV (reducePass sampleUserReport (reducePass sampleAppReport
        emptyRegistry)).readBytes ["user", "1001", "SMA_5S"]).isSome = true)
      ∧ (["user", "1001", "SMA_5S"], (2048 : ℚ)) ∈ readPairs sampleUserReport :=
  ⟨(reducePass_entity_families_exact sampleAppReport sampleUserReport emptyRegistry
      ["user", "1001", "SMA_5S"]).1.mpr (by decide),
   (reducePass_entity_families_exact sampleAppReport sampleUserReport emptyRegistry
      ["user", "1001", "SMA_5S"]).2.1 2048 (by decide)⟩

/-- C4: reducing the same snapshot twice in a row, from any starting registry
state, leaves every gauge vector with exactly the contents (same label
combinations, same values) that reducing it once leaves. -/
theorem reducePass_idempotent (r : Report) (reg : Registry) (f : Family)
    (k : List String) :
    lookupKV (getFam (reducePass r (reducePass r reg)) f) k
      = lookupKV (getFam (reducePass r reg) f) k := by
  cases f with
  | readBytes =>
    show lookupKV (reducePass r (reducePass r reg)).readBytes k
      = lookupKV (reducePass r reg).readBytes k
    rw [reducePass_lookup_read, reducePass_lookup_read]
  | writeBytes =>
    show lookupKV (reducePass r (reducePass r reg)).writeBytes k
      = lookupKV (reducePass r reg).writeBytes k
    rw [reducePass_lookup_write, reducePass_lookup_write]
  | threadLoopMicros =>
    show lookupKV (reducePass r (reducePass r reg)).threadLoopMicros k
      = lookupKV (reducePass r reg).threadLoopMicros k
    rw [reducePass_lookup_threadLoop, reducePass_lookup_threadLoop]
    cases lastVal (auxPairs r) k <;> simp [firstSome]

/-- C5: when the flattened processing order of a snapshot carries two samples
with the same label combination and different values, the reduction pass
still completes (it is a total function of the snapshot) and the registry
afterwards holds exactly the value of the later-processed pair, for the
bytes-read as well as the bytes-written vector. -/
theorem reducePass_duplicate_key_last_write (r : Report) (reg : Registry)
    (k : List String) (rv1 rv2 wv1 wv2 : ℚ)
    (l1 l2 l3 m1 m2 m3 : List (List String × ℚ))
    (hneq : rv1 ≠ rv2)
    (hr : readPairs r = l1 ++ (k, rv1) :: l2 ++ (k, rv2) :: l3)
    (hr3 : k ∉ l3.map (fun p => p.1))
    (hw : writePairs r = m1 ++ (k, wv1) :: m2 ++ (k, wv2) :: m3)
    (hw3 : k ∉ m3.map (fun p => p.1)) :
    lookupKV (reducePass r reg).readBytes k = some rv2
      ∧ lookupKV (reducePass r reg).writeBytes k = some wv2 := by
  constructor
  · rw [reducePass_lookup_read, hr]
    exact lastVal_dup l1 l2 l3 k rv1 rv2 hr3
  · rw [reducePass_lookup_write, hw]
    exact lastVal_dup m1 m2 m3 k wv1 wv2 hw3

/-- Witness for C5 on a concrete duplicate-key snapshot: the second-processed
values 9 and 90 win. -/
theorem reducePass_duplicate_key_last_write_witness :
    lookupKV (reducePass dupAppReport emptyRegistry).readBytes
        ["app", "jobA", "SMA_1M"] = some 9
      ∧ lookupKV (reducePass dupAppReport emptyRegistry).writeBytes
        ["app", "jobA", "SMA_1M"] = some 90 :=
  reducePass_duplicate_key_last_write dupAppReport emptyRegistry
    ["app", "jobA", "SMA_1M"] 7 9 70 90 [] [] [] [] [] []
    (by decide) (by decide) (by decide) (by decide) (by decide)

/-- C6: for every entity kind whose ranked list is empty in the current
snapshot, the reduction pass issues no Set of that kind while the vector
clears still run, so after the pass no label combination of that kind
remains in either byte vector, whatever the prior registry state held. -/
theorem reducePass_empty_kind_no_keys (s : Report) (reg : Registry)
    (id win : String) :
    (s.appStats = [] →
      lookupKV (reducePass s reg).readBytes ["app", id, win] = none
        ∧ lookupKV (reducePass s reg).writeBytes ["app", id, win] = none)
      ∧ (s.userStats = [] →
        lookupKV (reducePass s reg).readBytes ["user", id, win] = none
          ∧ lookupKV (reducePass s reg).writeBytes ["user", id, win] = none)
      ∧ (s.groupStats = [] →
        lookupKV (reducePass s reg).readBytes ["group", id, win] = none
          ∧ lookupKV (reducePass s reg).writeBytes ["group", id, win] = none) := by
  refine ⟨fun h => ⟨?_, ?_⟩, fun h => ⟨?_, ?_⟩, fun h => ⟨?_, ?_⟩⟩
  · rw [reducePass_lookup_read]
    exact lastVal_entityPairs_none _ s _
      (by rw [h]; simp [appPairs])
      (not_mem_userPairs_kind _ _ "app" id win (by decide))
      (not_mem_groupPairs_kind _ _ "app" id win (by decide))
  · rw [reducePass_lookup_write]
    exact lastVal_entityPairs_none _ s _
      (by rw [h]; simp [appPairs])
      (not_mem_userPairs_kind _ _ "app" id win (by decide))
      (not_mem_groupPairs_kind _ _ "app" id win (by decide))
  · rw [reducePass_lookup_read]
    exact lastVal_entityPairs_none _ s _
      (not_mem_appPairs_kind _ _ "user" id win (by decide))
      (by rw [h]; simp [userPairs])
      (not_mem_groupPairs_kind _ _ "user" id win (by decide))
  · rw [reducePass_lookup_write]
    exact lastVal_entityPairs_none _ s _
      (not_mem_appPairs_kind _ _ "user" id win (by decide))
      (by rw [h]; simp [userPairs])
      (not_mem_groupPairs_kind _ _ "user" id win (by decide))
  · rw [reducePass_lookup_read]
    exact lastVal_entityPairs_none _ s _
      (not_mem_appPairs_kind _ _ "group" id win (by decide))
      (not_mem_userPairs_kind _ _ "group" id win (by decide))
      (by rw [h]; simp [groupPairs])
  · rw [reducePass_lookup_write]
    exact lastVal_entityPairs_none _ s _
      (not_mem_appPairs_kind _ _ "group" id win (by decide))
      (not_mem_userPairs_kind _ _ "group" id win (by decide))
      (by rw [h]; simp [groupPairs])

/-- Witness for C6: the user snapshot has empty application and group lists,
so after reducing it on top of the application snapshot the jobA app key left
by the first snapshot is gone and no group key exists; reducing a fully empty
snapshot afterwards also removes the user key, exercising the user kind. -/
theorem reducePass_empty_kind_no_keys_witness :
    (lookupKV (reducePass sampleUserReport (reducePass sampleAppReport
        emptyRegistry)).readBytes ["app", "jobA", "SMA_1M"] = none
      ∧ lookupKV (reducePass sampleUserReport (reducePass sampleAppReport
        emptyRegistry)).writeBytes ["app", "jobA", "SMA_1M"] = none)
      ∧ (lookupKV (reducePass sampleUserReport (reducePass sampleAppReport
        emptyRegistry)).readBytes ["group", "jobA", "SMA_1M"] = none
      ∧ lookupKV (reducePass sampleUserReport (reducePass sampleAppReport
        emptyRegistry)).writeBytes ["group", "jobA", "SMA_1M"] = none)
      ∧ (lookupKV (reducePass (⟨3, none, none, [], [], []⟩ : Report)
        (reducePass sampleUserReport emptyRegistry)).readBytes
          ["user", "1001", "SMA_5S"] = none
      ∧ lookupKV (reducePass (⟨3, none, none, [], [], []⟩ : Report)
        (reducePass sampleUserReport emptyRegistry)).writeBytes
          ["user", "1001", "SMA_5S"] = none) :=
  ⟨(reducePass_empty_kind_no_keys sampleUserReport
      (reducePass sampleAppReport emptyRegistry) "jobA" "SMA_1M").1 rfl,
   (reducePass_empty_kind_no_keys sampleUserReport
      (reducePass sampleAppReport emptyRegistry) "jobA" "SMA_1M").2.2 rfl,
   (reducePass_empty_kind_no_keys (⟨3, none, none, [], [], []⟩ : Report)
      (reducePass sampleUserReport emptyRegistry) "1001" "SMA_5S").2.1 rfl⟩

/-- C7: exportMetric stores the numeric fields of a rate sample in the
registry unmodified, whatever rational value they hold (negative values
included); no validation, clamping or transformation sits between the sample
fields and the gauge values. -/
theorem exportMetric_passthrough (eType id win : String) (s : RateStats)
    (reg : Registry) :
    lookupKV (exportMetric eType id win s reg).readBytes [eType, id, win]
        = some s.bytesReadPerSec
      ∧ lookupKV (exportMetric eType id win s reg).writeBytes [eType, id, win]
        = some s.bytesWrittenPerSec := by
  constructor <;>
    simp [exportMetric, exportMetricOps, applyOps, applyOp, setFam, getFam,
      lookupKV_setKV]

/-- C10: after any reduction pass, a label combination is present in the
bytes-read vector exactly when it is present in the bytes-written vector:
both vectors are cleared together and every export writes both under the
same labels. -/
theorem reducePass_read_write_same_keys (r : Report) (reg : Registry)
    (k : List String) :
    (lookupKV (reducePass r reg).readBytes k).isSome
      = (lookupKV (reducePass r reg).writeBytes k).isSome := by
  rw [reducePass_lookup_read, reducePass_lookup_write]
  have hk : (writePairs r).map (fun p => p.1) = (readPairs r).map (fun p => p.1) :=
    entityPairs_keys _ _ r
  by_cases hmem : k ∈ (writePairs r).map (fun p => p.1)
  · rw [(lastVal_isSome_iff (writePairs r) k).mpr hmem,
      (lastVal_isSome_iff (readPairs r) k).mpr (by rw [← hk]; exact hmem)]
  · rw [lastVal_eq_none (writePairs r) k hmem,
      lastVal_eq_none (readPairs r) k (by rw [← hk]; exact hmem)]

/-- clearedBeforeSet scans an operation sequence and reports whether the
gauge vector of the given family is cleared before any Set touches it: true
when a Reset of the family (or the end of the sequence) comes first, false
when a Set of the family comes first. -/
def clearedBeforeSet : List RegOp → Family → Bool
  | [], _ => true
  | RegOp.clear f2 :: rest, f => if f2 = f then true else clearedBeforeSet rest f
  | RegOp.set f2 _ _ :: rest, f => if f2 = f then false else clearedBeforeSet rest f

/-- hasSetFor reports whether the sequence contains a Set on the family. -/
def hasSetFor : List RegOp → Family → Bool
  | [], _ => false
  | RegOp.clear _ :: rest, f => hasSetFor rest f
  | RegOp.set f2 _ _ :: rest, f => if f2 = f then true else hasSetFor rest f

/-- hasClearFor reports whether the sequence contains a Reset of the
family. -/
def hasClearFor : List RegOp → Family → Bool
  | [], _ => false
  | RegOp.clear f2 :: rest, f => if f2 = f then true else hasClearFor rest f
  | RegOp.set _ _ _ :: rest, f => hasClearFor rest f

theorem clearedBeforeSet_threadLoopOps (n : String) (o : Option ThreadLoopStats)
    (f : Family) (hf : f ≠ .threadLoopMicros) (l2 : List RegOp) :
    clearedBeforeSet (threadLoopOps n o ++ l2) f = clearedBeforeSet l2 f := by
  have hne : Family.threadLoopMicros ≠ f := fun h => hf h.symm
  cases o <;> simp [threadLoopOps, clearedBeforeSet, hne]

theorem hasClearFor_append (l1 l2 : List RegOp) (f : Family) :
    hasClearFor (l1 ++ l2) f = (hasClearFor l1 f || hasClearFor l2 f) := by
  induction l1 with
  | nil => simp [hasClearFor]
  | cons op rest ih =>
    cases op with
    | clear f2 => by_cases h : f2 = f <;> simp [hasClearFor, h, ih]
    | set f2 k v => simp [hasClearFor, ih]

theorem hasClearFor_threadLoopOps (n : String) (o : Option ThreadLoopStats) (f : Family) :
    hasClearFor (threadLoopOps n o) f = false := by
  cases o <;> simp [threadLoopOps, hasClearFor]

theorem hasClearFor_statsOps (t i : String) (ss : List RateStats) (f : Family) :
    hasClearFor (ss.flatMap (fun s => exportMetricOps t i s.window s)) f = false := by
  induction ss with
  | nil => rfl
  | cons s rest ih => rw [List.flatMap_cons, hasClearFor_append, ih]; rfl

theorem hasClearFor_appOps (l : List AppRateEntry) (f : Family) :
    hasClearFor (appOps l) f = false := by
  induction l with
  | nil => rfl
  | cons e rest ih =>
    rw [appOps, List.flatMap_cons, hasClearFor_append, ← appOps, ih,
      hasClearFor_statsOps]
    rfl

theorem hasClearFor_userOps (l : List UserRateEntry) (f : Family) :
    hasClearFor (userOps l) f = false := by
  induction l with
  | nil => rfl
  | cons e rest ih =>
    rw [userOps, List.flatMap_cons, hasClearFor_append, ← userOps, ih,
      hasClearFor_statsOps]
    rfl

theorem hasClearFor_groupOps (l : List GroupRateEntry) (f : Family) :
    hasClearFor (groupOps l) f = false := by
  induction l with
  | nil => rfl
  | cons e rest ih =>
    rw [groupOps, List.flatMap_cons, hasClearFor_append, ← groupOps, ih,
      hasClearFor_statsOps]
    rfl

/-- C2 counterexample: take a first snapshot whose fst-limits thread-loop
block carries mean 5, then a second snapshot with no auxiliary block at all.
The auxiliary block of the second snapshot contributes no data points, yet
after its reduction pass the thread-loop vector still answers 5 for the
fst-limits mean key: the stale auxiliary key of the first snapshot survives,
so the thread-loop vector does not hold exactly the points of the current
snapshot. -/
theorem threadLoop_stale_key_survives :
    auxPairs (⟨1, none, none, [], [], []⟩ : Report) = []
      ∧ lookupKV (reducePass (⟨1, none, none, [], [], []⟩ : Report)
          (reducePass (⟨0, some ⟨5, 1, 9⟩, none, [], [], []⟩ : Report)
            emptyRegistry)).threadLoopMicros ["fst_limits", "mean"] = some 5 := by
  constructor
  · rfl
  · decide

/-- C2 amended: the thread-loop vector is never cleared; a reduction pass
upserts the (loop, statistic) points present in the current snapshot with
their new values, and any other key keeps whatever value the prior registry
state held, so stale auxiliary keys survive. -/
theorem threadLoopMicros_upsert_no_clear (r : Report) (reg : Registry)
    (k : List String) :
    lookupKV (reducePass r reg).threadLoopMicros k
      = firstSome (lastVal (auxPairs r) k) (lookupKV reg.threadLoopMicros k) :=
  reducePass_lookup_threadLoop r reg k

/-- C3 counterexample: for a snapshot carrying an fst-limits thread-loop
block, the reduction pass writes the thread-loop vector while the operation
sequence contains no Reset of that vector at all, so the family is written
without having been cleared first in that pass. -/
theorem threadLoop_set_without_clear :
    hasSetFor (reducePassOps (⟨0, some ⟨5, 1, 9⟩, none, [], [], []⟩ : Report))
        .threadLoopMicros = true
      ∧ clearedBeforeSet (reducePassOps (⟨0, some ⟨5, 1, 9⟩, none, [], [], []⟩ : Report))
        .threadLoopMicros = false
      ∧ hasClearFor (reducePassOps (⟨0, some ⟨5, 1, 9⟩, none, [], [], []⟩ : Report))
        .threadLoopMicros = false := by
  refine ⟨?_, ?_, ?_⟩ <;> decide

/-- C3 amended: within every reduction pass the clear-before-set discipline
holds for the two entity byte vectors, whose Reset precedes every Set
belonging to them, while the thread-loop vector is never cleared in any
pass. -/
theorem clear_before_set_entity_families (r : Report) :
    clearedBeforeSet (reducePassOps r) .readBytes = true
      ∧ clearedBeforeSet (reducePassOps r) .writeBytes = true
      ∧ hasClearFor (reducePassOps r) .threadLoopMicros = false := by
  refine ⟨?_, ?_, ?_⟩
  · rw [reducePassOps]
    simp only [List.append_assoc]
    rw [clearedBeforeSet_threadLoopOps "fst_limits" r.fstLimitsUpdateThreadLoopStats
        Family.readBytes (by decide),
      clearedBeforeSet_threadLoopOps "estimators" r.estimatorsUpdateThreadLoopStats
        Family.readBytes (by decide)]
    simp [clearedBeforeSet]
  · rw [reducePassOps]
    simp only [List.append_assoc]
    rw [clearedBeforeSet_threadLoopOps "fst_limits" r.fstLimitsUpdateThreadLoopStats
        Family.writeBytes (by decide),
      clearedBeforeSet_threadLoopOps "estimators" r.estimatorsUpdateThreadLoopStats
        Family.writeBytes (by decide)]
    simp [clearedBeforeSet]
  · rw [reducePassOps]
    simp only [hasClearFor_append, hasClearFor_threadLoopOps, hasClearFor_appOps,
      hasClearFor_userOps, hasClearFor_groupOps, Bool.or_false, Bool.false_or]
    decide

/-- Unit suffixes of humanizeBytes, in scaling order. -/
def sizes : List String := ["B", "KB", "MB", "GB", "TB"]

/-- humanizeLoop mirrors the scaling loop of humanizeBytes in main.go: while
the value is at least 1024 and a larger unit remains, divide by 1024 and
advance the unit index.  The remaining number of allowed divisions (the
length of the unit list minus one minus the current index) is carried as an
explicit argument. -/
def humanizeLoop (fuel : Nat) (val : ℚ) (i : Nat) : ℚ × Nat :=
  match fuel with
  | 0 => (val, i)
  | Nat.succ f2 => if 1024 ≤ val then humanizeLoop f2 (val / 1024) (i + 1) else (val, i)

/-- Two-digit zero-padded rendering of a number below 100. -/
def padTwo (n : Nat) : String :=
  if n < 10 then "0" ++ toString n else toString n

/-- Nearest integer with ties rounded to even, the rounding of the fmt
package for a decimal digit position. -/
def roundHalfEven (q : ℚ) : Int :=
  if q - Int.floor q < 1 / 2 then Int.floor q
  else if 1 / 2 < q - Int.floor q then Int.floor q + 1
  else if Int.floor q % 2 = 0 then Int.floor q else Int.floor q + 1

/-- formatFixed2 models the fmt verb used by humanizeBytes for the numeric
part: fixed-point with exactly two fractional digits. -/
def formatFixed2 (q : ℚ) : String :=
  let n : Int := roundHalfEven (q * 100)
  let sign := if n < 0 then "-" else ""
  sign ++ toString (n.natAbs / 100) ++ "." ++ padTwo (n.natAbs % 100)

/-- humanizeBytes is the byte-rate formatter of main.go: repeated division by
1024 selects the unit, and the scaled value is rendered with two fractional
digits followed by the unit suffix. -/
def humanizeBytes (s : ℚ) : String :=
  let r := humanizeLoop (sizes.length - 1) s 0
  formatFixed2 r.1 ++ " " ++ sizes.getD r.2 ""

/-- userRowCells models the cells of one console row of printAndExportUsers:
the decimal uid, the window name, and the two humanized byte rates. -/
def userRowCells (uid : Nat) (s : RateStats) : List String :=
  [toString uid, s.window, humanizeBytes s.bytesReadPerSec,
   humanizeBytes s.bytesWrittenPerSec]

/-- C8: for the end-to-end example sample (uid 1001, window SMA_5S, 2048
bytes per second read, 0 written) the console row renders the read column as
2.00 KB, obtained by one division by 1024, and the write column as 0.00 B. -/
theorem humanizeBytes_example :
    userRowCells 1001 ⟨"SMA_5S", 2048, 0⟩ = ["1001", "SMA_5S", "2.00 KB", "0.00 B"] := by
  have hdiv : (2048 : ℚ) / 1024 = 2 := by norm_num
  have hloop1 : humanizeLoop (sizes.length - 1) 2048 0 = (2, 1) := by
    show humanizeLoop 4 2048 0 = (2, 1)
    rw [show humanizeLoop 4 2048 0
        = if (1024 : ℚ) ≤ 2048 then humanizeLoop 3 (2048 / 1024) 1 else (2048, 0) from rfl,
      if_pos (by norm_num), hdiv,
      show humanizeLoop 3 (2 : ℚ) 1
        = if (1024 : ℚ) ≤ 2 then humanizeLoop 2 (2 / 1024) 2 else (2, 1) from rfl,
      if_neg (by norm_num)]
  have hloop0 : humanizeLoop (sizes.length - 1) 0 0 = (0, 0) := by
    show humanizeLoop 4 0 0 = (0, 0)
    rw [show humanizeLoop 4 0 0
        = if (1024 : ℚ) ≤ 0 then humanizeLoop 3 (0 / 1024) 1 else (0, 0) from rfl,
      if_neg (by norm_num)]
  have hr200 : roundHalfEven ((2 : ℚ) * 100) = 200 := by
    rw [show (2 : ℚ) * 100 = 200 by norm_num, roundHalfEven,
      show Int.floor (200 : ℚ) = 200 by norm_num, if_pos (by norm_num)]
  have hr0 : roundHalfEven ((0 : ℚ) * 100) = 0 := by
    rw [show (0 : ℚ) * 100 = 0 by norm_num, roundHalfEven,
      show Int.floor (0 : ℚ) = 0 by norm_num, if_pos (by norm_num)]
  have hf2 : formatFixed2 (2 : ℚ) = "2.00" := by
    simp only [formatFixed2, hr200]
    decide
  have hf0 : formatFixed2 (0 : ℚ) = "0.00" := by
    simp only [formatFixed2, hr0]
    decide
  have h2 : humanizeBytes 2048 = "2.00 KB" := by
    simp only [humanizeBytes, hloop1, hf2]
    decide
  have h0 : humanizeBytes 0 = "0.00 B" := by
    simp only [humanizeBytes, hloop0, hf0]
    decide
  show [toString (1001 : Nat), "SMA_5S", humanizeBytes 2048, humanizeBytes 0]
    = ["1001", "SMA_5S", "2.00 KB", "0.00 B"]
  rw [h2, h0]
  decide

/-- RecvResult models one outcome of stream.Recv inside runMonitor: either a
received report, or a non-nil error. -/
inductive RecvResult where
  | ok (r : Report)
  | err (msg : String)
deriving DecidableEq

/-- runMonitorLoop models the unbounded receive loop of runMonitor on a
finite prefix of Recv outcomes.  Each received report is reduced in order; on
the first error the loop calls log.Fatalf, which terminates the process with
a failure exit, so nothing after it runs.  When the prefix is exhausted
without an error the loop is still running, blocked in the next Recv.  The
returned flag is true exactly when the process exited fatally. -/
def runMonitorLoop : Registry → List RecvResult → Registry × Bool
  | reg, [] => (reg, false)
  | reg, .err _ :: _ => (reg, true)
  | reg, .ok r :: rest => runMonitorLoop (reducePass r reg) rest

/-- okReports lists the reports received before the first error. -/
def okReports : List RecvResult → List Report
  | [] => []
  | .err _ :: _ => []
  | .ok r :: rest => r :: okReports rest

/-- hasErr reports whether some Recv outcome of the list is an error. -/
def hasErr : List RecvResult → Bool
  | [] => false
  | .err _ :: _ => true
  | .ok _ :: rest => hasErr rest

/-- C9: the receive loop reduces exactly the reports delivered before the
first Recv error and nothing after it, and it ends in the fatal failure exit
precisely when some Recv returned an error; with no error the loop never
exits. -/
theorem runMonitorLoop_characterization (msgs : List RecvResult) (reg : Registry) :
    runMonitorLoop reg msgs
      = ((okReports msgs).foldl (fun g r => reducePass r g) reg, hasErr msgs) := by
  induction msgs generalizing reg with
  | nil => rfl
  | cons m rest ih =>
    cases m with
    | err e => rfl
    | ok r =>
      show runMonitorLoop (reducePass r reg) rest = _
      rw [ih]
      rfl

end EosMonitor
